import Mathlib

/-!
Verification of the comma-cli core: the placeholder parsing/substitution
engine (`src/core/placeholders.ts`) and the fuzzy-search ranking logic
(`src/utils/fuzzy.ts`), against their natural-language specification.

Modeling conventions:
* JavaScript strings are modeled as `List Char`.
* `Record<string, string>` values are modeled as insertion-ordered
  association lists (`List (Str × Str)`), with JavaScript property
  semantics: assigning to an existing key updates it in place, assigning
  to a new key appends it.
* The compiled regular expression `PLACEHOLDER_REGEX` (declared with the
  `g` flag) carries a mutable `lastIndex` cursor that is shared between
  calls.  Pure entry points (`parsePlaceholders`, `substitutePlaceholders`,
  `hasPlaceholders`) model a call on a quiescent engine (`lastIndex = 0`,
  which every complete `exec` loop and every `replace`/`test` call
  restores on a failed match); the `…S` variants at the end of the
  placeholder section model the cursor explicitly as a `Nat` state to
  reason about call sequences.
* The left-to-right regex scans consume at least one character per step,
  so the scanning loops take an explicit fuel argument; fuel equal to the
  length of the scanned string is always sufficient, and all lemmas are
  proved for any sufficient fuel.
-/

namespace CommaCli

/-- JavaScript strings are modeled as lists of characters. -/
abbrev Str := List Char

/-- Model of the TypeScript `Placeholder` interface (`storage/types.ts`):
`name`, optional `defaultValue`, `required`, and the full matched text
including braces (field `match` in the source; `match` is a Lean keyword,
so the field is called `matchText` here). -/
structure Placeholder where
  name : Str
  defaultValue : Option Str
  required : Bool
  matchText : Str
deriving DecidableEq

/-- Character class `[a-zA-Z_]`: legal first character of a placeholder name. -/
def isNameStart (c : Char) : Bool := c.isAlpha || c = '_'

/-- Character class `[a-zA-Z0-9_-]`: legal continuation character of a
placeholder name. -/
def isNameChar (c : Char) : Bool := c.isAlpha || c.isDigit || c = '_' || c = '-'

/-- Attempts to match the body of `PLACEHOLDER_REGEX`, i.e.
`\{([a-zA-Z_][a-zA-Z0-9_-]*)(?::([^}]*))?\}`, at the head of `cs` (the
lookbehind `(?<!\\)` is checked by the callers, which track the preceding
character).  The greedy quantifiers commit: the name character class
excludes both `:` and `}`, and `[^}]*` excludes `}`, so the regex engine
can never succeed by backtracking into a shorter run, and taking the
maximal runs is faithful.  Returns the captured name, the optional
captured default, and the remainder of the input after the match. -/
def tryMatchAt : Str → Option (Str × Option Str × Str)
  | '{' :: c :: rest =>
    if isNameStart c then
      let nm := c :: rest.takeWhile isNameChar
      match rest.dropWhile isNameChar with
      | '}' :: rem => some (nm, none, rem)
      | ':' :: rem₁ =>
        let d := rem₁.takeWhile (fun x => x != '}')
        match rem₁.dropWhile (fun x => x != '}') with
        | '}' :: rem₂ => some (nm, some d, rem₂)
        | _ => none
      | _ => none
    else none
  | _ => none

/-- The full text (including braces) of a match with the given captures:
`{name}` when there was no `:` section, `{name:default}` otherwise. -/
def matchedTextOf (nm : Str) (d : Option Str) : Str :=
  match d with
  | none => '{' :: nm ++ ['}']
  | some dv => '{' :: nm ++ ':' :: dv ++ ['}']

/-- Property lookup in a `Record<string, string>` model. -/
def lookupV : List (Str × Str) → Str → Option Str
  | [], _ => none
  | (k, v) :: rest, n => if k = n then some v else lookupV rest n

/-- A successful `tryMatchAt` consumes at least the two braces and one
name character, so the remainder is strictly shorter than the input. -/
theorem tryMatchAt_length : ∀ {cs nm d rem},
    tryMatchAt cs = some (nm, d, rem) → rem.length < cs.length := by
  intro cs nm d rem h
  unfold tryMatchAt at h
  split at h
  case _ c rest =>
    split at h
    · split at h
      case _ heq =>
        have hle : (rest.dropWhile isNameChar).length ≤ rest.length :=
          (List.dropWhile_sublist _).length_le
        rw [heq] at hle
        simp only [Option.some.injEq, Prod.mk.injEq] at h
        obtain ⟨-, -, hrem⟩ := h
        subst hrem
        simp at hle ⊢
        omega
      case _ rem₁ heq =>
        split at h
        case _ rem₂ heq₂ =>
          have hle : (rest.dropWhile isNameChar).length ≤ rest.length :=
            (List.dropWhile_sublist _).length_le
          have hle₂ : (rem₁.dropWhile (fun x => x != '}')).length ≤ rem₁.length :=
            (List.dropWhile_sublist _).length_le
          rw [heq] at hle
          rw [heq₂] at hle₂
          simp only [Option.some.injEq, Prod.mk.injEq] at h
          obtain ⟨-, -, hrem⟩ := h
          subst hrem
          simp at hle hle₂ ⊢
          omega
        · exact absurd h (by simp)
      · exact absurd h (by simp)
    · exact absurd h (by simp)
  · exact absurd h (by simp)

/-- The callback passed to `command.replace(PLACEHOLDER_REGEX, …)` in
`substitutePlaceholders`: the provided value if the name is bound to a
non-empty string, else the declared default if any (possibly empty), else
the original matched text including braces. -/
def resolveMatch (values : List (Str × Str)) (nm : Str) (d : Option Str) : Str :=
  match lookupV values nm with
  | some v =>
    if v ≠ [] then v
    else
      match d with
      | some dv => dv
      | none => matchedTextOf nm d
  | none =>
    match d with
    | some dv => dv
    | none => matchedTextOf nm d

/-- Fueled left-to-right scan implementing the match-and-replace loop of
`String.prototype.replace` with `PLACEHOLDER_REGEX` (which starts at
position 0): `prev` is the character immediately before the current
position (for the lookbehind `(?<!\\)`), non-matching characters are
copied, and each match is replaced by `resolveMatch`.  The scan advances
past each match, so replacement text is never rescanned. -/
def scanSubF (values : List (Str × Str)) : Nat → Option Char → Str → Str
  | 0, _, _ => []
  | _ + 1, _, [] => []
  | fuel + 1, prev, c :: rest =>
    if prev = some '\\' then c :: scanSubF values fuel (some c) rest
    else
      match tryMatchAt (c :: rest) with
      | some (nm, d, rem) => resolveMatch values nm d ++ scanSubF values fuel (some '}') rem
      | none => c :: scanSubF values fuel (some c) rest

/-- Model of `ESCAPED_BRACE_REGEX` replacement: every `\{` becomes `{` and
every `\}` becomes `}`, in a single left-to-right pass. -/
def unescapeBraces : Str → Str
  | '\\' :: '{' :: rest => '{' :: unescapeBraces rest
  | '\\' :: '}' :: rest => '}' :: unescapeBraces rest
  | c :: rest => c :: unescapeBraces rest
  | [] => []

/-- Model of `substitutePlaceholders` (`core/placeholders.ts`): replace
every placeholder match via the resolution callback, then unescape
escaped braces over the whole substituted string. -/
def substitutePlaceholders (command : Str) (values : List (Str × Str)) : Str :=
  unescapeBraces (scanSubF values command.length none command)

/-- Fueled model of the `PLACEHOLDER_REGEX.exec` loop in
`parsePlaceholders`: emits one `Placeholder` per match whose name was not
already emitted (`seen` is the set of already-emitted names). -/
def parseLoopF : Nat → List Str → Option Char → Str → List Placeholder
  | 0, _, _, _ => []
  | _ + 1, _, _, [] => []
  | fuel + 1, seen, prev, c :: rest =>
    if prev = some '\\' then parseLoopF fuel seen (some c) rest
    else
      match tryMatchAt (c :: rest) with
      | some (nm, d, rem) =>
        if nm ∈ seen then parseLoopF fuel seen (some '}') rem
        else
          { name := nm, defaultValue := d, required := d.isNone,
            matchText := matchedTextOf nm d } :: parseLoopF fuel (nm :: seen) (some '}') rem
      | none => parseLoopF fuel seen (some c) rest

/-- Model of `parsePlaceholders` (`core/placeholders.ts`) on a quiescent
engine (`lastIndex = 0`). -/
def parsePlaceholders (command : Str) : List Placeholder :=
  parseLoopF command.length [] none command

/-- Finds the first regex match in `cs`, where `pos` is the absolute
position of the head of `cs` in the full subject string and `prev` the
character just before it; returns the captures and the absolute end
position of the match (the value `exec` stores into `lastIndex`). -/
def execFromAux : Nat → Option Char → Str → Option (Str × Option Str × Nat)
  | _, _, [] => none
  | pos, prev, c :: rest =>
    if prev = some '\\' then execFromAux (pos + 1) (some c) rest
    else
      match tryMatchAt (c :: rest) with
      | some (nm, d, rem) => some (nm, d, pos + ((c :: rest).length - rem.length))
      | none => execFromAux (pos + 1) (some c) rest

/-- The character just before position `s` of `cmd` (`none` at position 0);
the lookbehind `(?<!\\)` inspects the subject string itself, even before
`lastIndex`. -/
def prevCharAt (cmd : Str) (s : Nat) : Option Char :=
  if s = 0 then none else cmd[s - 1]?

/-- Model of `PLACEHOLDER_REGEX.exec(cmd)` with the shared cursor
`lastIndex = s`: the search for a match starts at position `s`. -/
def regexExecS (cmd : Str) (s : Nat) : Option (Str × Option Str × Nat) :=
  execFromAux s (prevCharAt cmd s) (cmd.drop s)

/-- Model of `hasPlaceholders` (`core/placeholders.ts`) with the shared
`lastIndex` state made explicit.  The source first sets
`PLACEHOLDER_REGEX.lastIndex = 0` (so the incoming state is ignored) and
then calls `test`, which on success stores the end position of the match
into `lastIndex` and on failure resets it to 0. -/
def hasPlaceholdersS (cmd : Str) (_s : Nat) : Bool × Nat :=
  match regexExecS cmd 0 with
  | some (_, _, e) => (true, e)
  | none => (false, 0)

/-- Model of `hasPlaceholders` viewed as a pure predicate (its boolean
result never depends on the incoming state, since the source resets
`lastIndex` before testing). -/
def hasPlaceholders (command : Str) : Bool :=
  (hasPlaceholdersS command 0).1

/-- Fueled model of the `exec` loop of `parsePlaceholders` with the shared
cursor explicit: matching continues from `lastIndex = s`, which the
source does NOT reset before the loop. -/
def parseLoopS (cmd : Str) : Nat → List Str → Nat → List Placeholder
  | 0, _, _ => []
  | fuel + 1, seen, s =>
    match regexExecS cmd s with
    | none => []
    | some (nm, d, e) =>
      if nm ∈ seen then parseLoopS cmd fuel seen e
      else
        { name := nm, defaultValue := d, required := d.isNone,
          matchText := matchedTextOf nm d } :: parseLoopS cmd fuel (nm :: seen) e

/-- Model of `parsePlaceholders` with the shared `lastIndex` state made
explicit: the scan starts at the incoming cursor `s`, and the final
failed `exec` resets the cursor to 0. -/
def parsePlaceholdersS (cmd : Str) (s : Nat) : List Placeholder × Nat :=
  (parseLoopS cmd (cmd.length + 1) [] s, 0)

/-! ### Specification-side scan

A declarative presentation of one fresh left-to-right scan of the
template, used to state what `parsePlaceholders` and
`substitutePlaceholders` compute: the template splits into a list of
segments (literal gap text followed by a grammar match) and a trailing
literal. -/

/-- One segment of a scanned template: the literal text before a match,
and the match's captured name and optional default. -/
structure Seg where
  gap : Str
  name : Str
  dflt : Option Str
deriving DecidableEq

/-- Prepends a literal character to a scan result (onto the gap of the
first segment, or onto the trailing literal when there is no match). -/
def consGap (c : Char) : List Seg × Str → List Seg × Str
  | ([], tail) => ([], c :: tail)
  | (seg :: segs, tail) => ({ seg with gap := c :: seg.gap } :: segs, tail)

/-- Fueled fresh left-to-right scan of a template into segments, with
`prev` the character before the current position (lookbehind). -/
def scanSplitF : Nat → Option Char → Str → List Seg × Str
  | 0, _, _ => ([], [])
  | _ + 1, _, [] => ([], [])
  | fuel + 1, prev, c :: rest =>
    if prev = some '\\' then consGap c (scanSplitF fuel (some c) rest)
    else
      match tryMatchAt (c :: rest) with
      | some (nm, d, rem) =>
        let r := scanSplitF fuel (some '}') rem
        (⟨[], nm, d⟩ :: r.1, r.2)
      | none => consGap c (scanSplitF fuel (some c) rest)

/-- The segments and trailing literal of a fresh scan of `cmd`. -/
def scanSplit (cmd : Str) : List Seg × Str :=
  scanSplitF cmd.length none cmd

/-- The grammar matches of a fresh scan of `cmd`, in order of position,
without any deduplication (repeated names appear repeatedly). -/
def rawMatches (cmd : Str) : List (Str × Option Str) :=
  (scanSplit cmd).1.map (fun seg => (seg.name, seg.dflt))

/-- Keeps the first occurrence of each name and drops later occurrences
(names in `seen` are dropped altogether). -/
def dedupFirst (seen : List Str) : List (Str × Option Str) → List (Str × Option Str)
  | [] => []
  | (nm, d) :: rest =>
    if nm ∈ seen then dedupFirst seen rest
    else (nm, d) :: dedupFirst (nm :: seen) rest

/-- The `Placeholder` a match gives rise to, as the specification
describes it: `defaultValue` absent exactly when no `:` section was
present, `required` true exactly when `defaultValue` is absent, and the
exact matched text. -/
def mkPlaceholder (p : Str × Option Str) : Placeholder :=
  { name := p.1, defaultValue := p.2, required := p.2.isNone,
    matchText := matchedTextOf p.1 p.2 }

/-- Replaces every match of a scan by the resolution policy, leaving all
literal text in place. -/
def renderSegs (values : List (Str × Str)) (r : List Seg × Str) : Str :=
  (r.1.map (fun seg => seg.gap ++ resolveMatch values seg.name seg.dflt)).flatten ++ r.2

/-- Resolution policy exactly as the specification words it: the provided
value if it is present and non-empty, else the match's declared default
(possibly empty), else the original matched text including braces. -/
def specResolve (values : List (Str × Str)) (nm : Str) (d : Option Str) : Str :=
  (((lookupV values nm).filter (fun v => v != [])).or d).getD (matchedTextOf nm d)

/-- Declarative grammar of a placeholder occurrence: the input is exactly
the matched text (name starting with `[a-zA-Z_]` and continuing with
`[a-zA-Z0-9_-]`, default free of `}`) followed by the remainder. -/
def specGrammarMatch (cs : Str) (nm : Str) (d : Option Str) (rem : Str) : Prop :=
  cs = matchedTextOf nm d ++ rem ∧
  (∃ c nmRest, nm = c :: nmRest ∧ isNameStart c = true ∧
    ∀ x ∈ nmRest, isNameChar x = true) ∧
  (∀ dv, d = some dv → '}' ∉ dv)

/-! ### Remaining placeholder-engine operations -/

/-- The loop body of `validatePlaceholderValues`: collects, in slot
order, the names of required placeholders whose value is absent or the
empty string. -/
def missingLoop (values : List (Str × Str)) : List Placeholder → List Str
  | [] => []
  | ph :: rest =>
    if ph.required then
      match lookupV values ph.name with
      | none => ph.name :: missingLoop values rest
      | some v =>
        if v = [] then ph.name :: missingLoop values rest
        else missingLoop values rest
    else missingLoop values rest

/-- Model of `validatePlaceholderValues` (`core/placeholders.ts`):
returns `(valid, missing)` with `valid = (missing.length === 0)`. -/
def validatePlaceholderValues (placeholders : List Placeholder)
    (values : List (Str × Str)) : Bool × List Str :=
  let missing := missingLoop values placeholders
  (missing.length == 0, missing)

/-- JavaScript property assignment `m[k] = v` on a record model: updates
the existing entry in place, or appends a new entry. -/
def setV : List (Str × Str) → Str → Str → List (Str × Str)
  | [], k, v => [(k, v)]
  | (k', v') :: rest, k, v =>
    if k' = k then (k', v) :: rest else (k', v') :: setV rest k v

/-- Model of `buildInitialValues` (`core/placeholders.ts`): seeds every
placeholder name with its default, or the empty string if required. -/
def buildInitialValues (placeholders : List Placeholder) : List (Str × Str) :=
  placeholders.foldl (fun m ph => setV m ph.name (ph.defaultValue.getD [])) []

/-- Model of `mapArgsToPlaceholders` (`core/placeholders.ts`): starts
from `buildInitialValues`, then for each index `i` below
`min(args.length, placeholders.length)` assigns
`values[placeholders[i].name] = args[i]` unconditionally (`zip`
truncates to exactly that index range). -/
def mapArgsToPlaceholders (placeholders : List Placeholder) (args : List Str) :
    List (Str × Str) :=
  (placeholders.zip args).foldl (fun m pa => setV m pa.1.name pa.2)
    (buildInitialValues placeholders)

/-! ### Ranking/search engine (`src/utils/fuzzy.ts`)

`Fuse.js` is an external dependency, not code of this repository; the
specification treats its scoring as a tunable whose only obligation here
is that it selects a matched subset of the input.  The search functions
are therefore parameterized by the matcher `fuse`, standing for
`createSearchIndex(commands)` followed by `.search(query)` and
extraction of the items. -/

/-- Model of the TypeScript `Command` interface (`storage/types.ts`). -/
structure Command where
  id : Str
  command : Str
  description : Option Str
  favorite : Bool
  createdAt : Nat
  updatedAt : Nat
  usageCount : Nat
  lastUsed : Option Nat
deriving DecidableEq

/-- Lexicographic character-code comparison of two strings.  This models
`String.prototype.localeCompare` on the command ids, which the external
ID contract restricts to lowercase alphanumerics and hyphens; on such
strings the default collation is a strict total order, modeled here by
code-unit order. -/
def lexOrd : Str → Str → Ordering
  | [], [] => .eq
  | [], _ :: _ => .lt
  | _ :: _, [] => .gt
  | a :: as, b :: bs =>
    if a < b then .lt else if b < a then .gt else lexOrd as bs

/-- The integer sign `localeCompare` feeds to the sort comparator. -/
def localeCompareInt (a b : Str) : Int :=
  match lexOrd a b with
  | .lt => -1
  | .eq => 0
  | .gt => 1

/-- Model of the comparator passed to `sort` in `sortCommands`:
favorites first, then usage count descending, then id ascending. -/
def compareCommands (a b : Command) : Int :=
  if a.favorite ≠ b.favorite then (if a.favorite then -1 else 1)
  else if a.usageCount ≠ b.usageCount then (b.usageCount : Int) - (a.usageCount : Int)
  else localeCompareInt a.id b.id

/-- Boolean `a` sorts-no-later-than `b` order induced by the comparator. -/
def cmdLE (a b : Command) : Bool := compareCommands a b ≤ 0

/-- Model of `sortCommands` (`utils/fuzzy.ts`): a stable sort of (a copy
of) the input by the comparator; `Array.prototype.sort` is stable, which
`List.mergeSort` models. -/
def sortCommands (commands : List Command) : List Command :=
  commands.mergeSort cmdLE

/-- Model of `String.prototype.trim` (whitespace stripped from both
ends). -/
def trimList (s : Str) : Str :=
  ((s.dropWhile Char.isWhitespace).reverse.dropWhile Char.isWhitespace).reverse

/-- Model of `searchCommands` (`utils/fuzzy.ts`), parameterized by the
external fuzzy matcher: an empty-after-trim query returns the whole
collection sorted; otherwise the matched subset is sorted. -/
def searchCommands (fuse : List Command → Str → List Command)
    (commands : List Command) (query : Str) : List Command :=
  if (trimList query).isEmpty then sortCommands commands
  else sortCommands (fuse commands query)

/-- The triple the ordering is defined on. -/
def cmdKey (a : Command) : Bool × Nat × Str :=
  (a.favorite, a.usageCount, a.id)

/-- Ordering chain exactly as the specification words it: `favorite`
true before false, then higher `usageCount` first, then ascending id. -/
def specLT (a b : Command) : Prop :=
  (a.favorite = true ∧ b.favorite = false)
  ∨ (a.favorite = b.favorite ∧ b.usageCount < a.usageCount)
  ∨ (a.favorite = b.favorite ∧ a.usageCount = b.usageCount ∧ lexOrd a.id b.id = .lt)

/-! ### Array-level model for the frame claim

JavaScript arrays are mutable references.  To state that
`sortCommands`/`searchCommands` leave the caller's array unchanged, a
heap of arrays is modeled explicitly: a list of array contents indexed
by reference. -/

/-- A heap of command arrays; a reference is an index into the heap. -/
abbrev CmdHeap := List (List Command)

/-- Reads the contents of array reference `r`. -/
def heapRead (h : CmdHeap) (r : Nat) : List Command := h.getD r []

/-- Model of `Array.prototype.sort` on reference `r`: sorts that array's
contents in place (every other array is untouched). -/
def jsSortInPlace (h : CmdHeap) (r : Nat) : CmdHeap :=
  h.set r ((heapRead h r).mergeSort cmdLE)

/-- Heap-level model of calling `sortCommands(r)`: the spread
`[...commands]` allocates a fresh array holding a copy of the caller's
contents, `sort` then mutates that fresh array in place, and the
function returns the fresh reference's contents.  Returns the final heap
and the returned value. -/
def sortCommandsCall (h : CmdHeap) (r : Nat) : CmdHeap × List Command :=
  let copyRef := h.length
  let h₁ := h ++ [heapRead h r]
  let h₂ := jsSortInPlace h₁ copyRef
  (h₂, heapRead h₂ copyRef)

/-- Heap-level model of calling `searchCommands(r, query)`: the empty
query branch passes the caller's array to `sortCommands`; otherwise the
matcher reads the array and its result list (a fresh array) is sorted. -/
def searchCommandsCall (fuse : List Command → Str → List Command)
    (h : CmdHeap) (r : Nat) (query : Str) : CmdHeap × List Command :=
  if (trimList query).isEmpty then sortCommandsCall h r
  else
    let matched := fuse (heapRead h r) query
    let h₁ := h ++ [matched]
    sortCommandsCall h₁ (h.length)

/-- Spec-side missingness test of `validate`: the value for `nm` is
absent or equal to the empty string. -/
def isMissingVal (values : List (Str × Str)) (nm : Str) : Bool :=
  match lookupV values nm with
  | none => true
  | some v => v == []

/-! ## Helper lemmas -/

theorem takeWhile_eq_of_all {α} (p : α → Bool) (xs : List α) (y : α) (ys : List α)
    (hall : ∀ x ∈ xs, p x = true) (hy : p y = false) :
    (xs ++ y :: ys).takeWhile p = xs := by
  induction xs with
  | nil => simp [List.takeWhile_cons, hy]
  | cons x xs ih =>
    have hx : p x = true := hall x (by simp)
    simp only [List.cons_append, List.takeWhile_cons, hx, if_true]
    rw [ih (fun z hz => hall z (by simp [hz]))]

theorem dropWhile_eq_of_all {α} (p : α → Bool) (xs : List α) (y : α) (ys : List α)
    (hall : ∀ x ∈ xs, p x = true) (hy : p y = false) :
    (xs ++ y :: ys).dropWhile p = y :: ys := by
  induction xs with
  | nil => simp [List.dropWhile_cons, hy]
  | cons x xs ih =>
    have hx : p x = true := hall x (by simp)
    simp only [List.cons_append, List.dropWhile_cons, hx, if_true]
    exact ih (fun z hz => hall z (by simp [hz]))

/-- A successful match always begins with an opening brace. -/
theorem tryMatchAt_head : ∀ {cs : Str} {t : Str × Option Str × Str},
    tryMatchAt cs = some t → ∃ rest, cs = '{' :: rest := by
  intro cs t h
  unfold tryMatchAt at h
  split at h
  case _ c rest => exact ⟨c :: rest, rfl⟩
  · exact absurd h (by simp)

/-! ## Claim C6: validate -/

/-- Claim C6: for every sequence of placeholders and every values
mapping, `validate` returns as `missing` the names, in slot order, of
exactly those required placeholders whose value is absent or the empty
string, and `valid = true` exactly when that list is empty.  (The
operation is a total function; the Lean model has no other failure
path, mirroring the source, which throws nothing.) -/
theorem claim6_validate_missing (placeholders : List Placeholder)
    (values : List (Str × Str)) :
    (validatePlaceholderValues placeholders values).2
      = (placeholders.filter
          (fun ph => ph.required && isMissingVal values ph.name)).map Placeholder.name
    ∧ ((validatePlaceholderValues placeholders values).1 = true
        ↔ (validatePlaceholderValues placeholders values).2 = []) := by
  constructor
  · simp only [validatePlaceholderValues]
    induction placeholders with
    | nil => rfl
    | cons ph rest ih =>
      by_cases hreq : ph.required = true
      · rcases hl : lookupV values ph.name with _ | v
        · simp [missingLoop, List.filter_cons, hreq, isMissingVal, hl, ih]
        · by_cases hv : v = []
          · simp [missingLoop, List.filter_cons, hreq, isMissingVal, hl, hv, ih]
          · simp [missingLoop, List.filter_cons, hreq, isMissingVal, hl, hv,
              List.isEmpty_iff, ih]
      · have hreq' : ph.required = false := by simpa using hreq
        simp [missingLoop, List.filter_cons, hreq', ih]
  · simp only [validatePlaceholderValues]
    constructor
    · intro h
      exact List.length_eq_zero.mp (by simpa using h)
    · intro h
      simp [h]

/-! ## Claim C8: brace-free templates are inert -/

/-- Substitution scan copies a brace-free suffix verbatim. -/
theorem scanSubF_no_brace (values : List (Str × Str)) :
    ∀ (fuel : Nat) (prev : Option Char) (cs : Str), cs.length ≤ fuel → '{' ∉ cs →
    scanSubF values fuel prev cs = cs := by
  intro fuel
  induction fuel with
  | zero =>
    intro prev cs hf _
    have : cs = [] := List.eq_nil_of_length_eq_zero (Nat.le_zero.mp hf)
    simp [this, scanSubF]
  | succ fuel ih =>
    intro prev cs hf hnb
    match cs with
    | [] => simp [scanSubF]
    | c :: rest =>
      have hc : c ≠ '{' := fun hc => hnb (hc ▸ List.mem_cons_self c rest)
      have hrest : '{' ∉ rest := fun hm => hnb (List.mem_cons_of_mem c hm)
      have hflen : rest.length ≤ fuel := by simpa using hf
      have hnone : tryMatchAt (c :: rest) = none := by
        rcases htry : tryMatchAt (c :: rest) with _ | t
        · rfl
        · obtain ⟨tail, heq⟩ := tryMatchAt_head htry
          exact absurd (List.head_eq_of_cons_eq heq ▸ rfl) hc
      simp only [scanSubF, hnone]
      split
      · rw [ih (some c) rest hflen hrest]
      · rw [ih (some c) rest hflen hrest]

/-- Parse scan finds nothing in a brace-free suffix. -/
theorem parseLoopF_no_brace :
    ∀ (fuel : Nat) (seen : List Str) (prev : Option Char) (cs : Str),
    cs.length ≤ fuel → '{' ∉ cs → parseLoopF fuel seen prev cs = [] := by
  intro fuel
  induction fuel with
  | zero => intro seen prev cs hf _; simp [parseLoopF]
  | succ fuel ih =>
    intro seen prev cs hf hnb
    match cs with
    | [] => simp [parseLoopF]
    | c :: rest =>
      have hc : c ≠ '{' := fun hc => hnb (hc ▸ List.mem_cons_self c rest)
      have hrest : '{' ∉ rest := fun hm => hnb (List.mem_cons_of_mem c hm)
      have hflen : rest.length ≤ fuel := by simpa using hf
      have hnone : tryMatchAt (c :: rest) = none := by
        rcases htry : tryMatchAt (c :: rest) with _ | t
        · rfl
        · obtain ⟨tail, heq⟩ := tryMatchAt_head htry
          exact absurd (List.head_eq_of_cons_eq heq ▸ rfl) hc
      simp only [parseLoopF, hnone]
      split
      · exact ih seen (some c) rest hflen hrest
      · exact ih seen (some c) rest hflen hrest

/-- Unescaping is the identity on brace-free strings. -/
theorem unescapeBraces_id : ∀ (cs : Str), '{' ∉ cs → '}' ∉ cs →
    unescapeBraces cs = cs := by
  intro cs
  induction cs using unescapeBraces.induct with
  | case1 rest _ => intro ho _; exact absurd (by simp) ho
  | case2 rest _ => intro _ hc; exact absurd (by simp) hc
  | case3 c rest hno hnc ih =>
    intro ho hc
    have : '{' ∉ rest := fun hm => ho (List.mem_cons_of_mem c hm)
    have : '}' ∉ rest := fun hm => hc (List.mem_cons_of_mem c hm)
    simp only [unescapeBraces]
    rw [ih (fun hm => ho (List.mem_cons_of_mem c hm))
        (fun hm => hc (List.mem_cons_of_mem c hm))]
  | case4 => intro _ _; rfl

/-- Claim C8: a template containing no `{` and no `}` parses to the
empty sequence and is returned unchanged by substitution, for every
values mapping. -/
theorem claim8_brace_free_inert (cmd : Str) (values : List (Str × Str))
    (hopen : '{' ∉ cmd) (hclose : '}' ∉ cmd) :
    parsePlaceholders cmd = [] ∧ substitutePlaceholders cmd values = cmd := by
  constructor
  · exact parseLoopF_no_brace cmd.length [] none cmd le_rfl hopen
  · unfold substitutePlaceholders
    rw [scanSubF_no_brace values cmd.length none cmd le_rfl hopen]
    exact unescapeBraces_id cmd hopen hclose

/-- Witness for C8 at the concrete template `echo hi`. -/
theorem claim8_witness :
    parsePlaceholders ['e', 'c', 'h', 'o', ' ', 'h', 'i'] = []
    ∧ substitutePlaceholders ['e', 'c', 'h', 'o', ' ', 'h', 'i'] []
        = ['e', 'c', 'h', 'o', ' ', 'h', 'i'] :=
  claim8_brace_free_inert ['e', 'c', 'h', 'o', ' ', 'h', 'i'] []
    (by decide) (by decide)

/-! ## Claim C1: substitution -/

/-- Rendering commutes with prepending a literal character to a scan. -/
theorem renderSegs_consGap (values : List (Str × Str)) (c : Char)
    (r : List Seg × Str) :
    renderSegs values (consGap c r) = c :: renderSegs values r := by
  rcases r with ⟨segs, tail⟩
  cases segs with
  | nil => simp [consGap, renderSegs]
  | cons seg rest => simp [consGap, renderSegs]

/-- The substitution loop of `replace` computes exactly the per-match
policy applied to every match of one fresh scan. -/
theorem scanSubF_eq_renderSegs (values : List (Str × Str)) :
    ∀ (fuel : Nat) (prev : Option Char) (cs : Str), cs.length ≤ fuel →
    scanSubF values fuel prev cs = renderSegs values (scanSplitF fuel prev cs) := by
  intro fuel
  induction fuel with
  | zero =>
    intro prev cs hf
    have : cs = [] := List.eq_nil_of_length_eq_zero (Nat.le_zero.mp hf)
    simp [this, scanSubF, scanSplitF, renderSegs]
  | succ fuel ih =>
    intro prev cs hf
    match cs with
    | [] => simp [scanSubF, scanSplitF, renderSegs]
    | c :: rest =>
      have hflen : rest.length ≤ fuel := by simpa using hf
      by_cases hp : prev = some '\\'
      · simp only [scanSubF, scanSplitF, hp, if_true]
        rw [renderSegs_consGap, ih (some c) rest hflen]
      · rcases htry : tryMatchAt (c :: rest) with _ | ⟨nm, d, rem⟩
        · simp only [scanSubF, scanSplitF, hp, if_false, htry]
          rw [renderSegs_consGap, ih (some c) rest hflen]
        · have hrem : rem.length ≤ fuel := by
            have := tryMatchAt_length htry
            simp at this
            omega
          simp only [scanSubF, scanSplitF, hp, if_false, htry]
          rw [ih (some '}') rem hrem]
          simp [renderSegs]

/-- The two phrasings of the per-match resolution policy agree. -/
theorem resolveMatch_eq_specResolve (values : List (Str × Str)) (nm : Str)
    (d : Option Str) : resolveMatch values nm d = specResolve values nm d := by
  unfold resolveMatch specResolve
  rcases hl : lookupV values nm with _ | v
  · cases d <;> simp [Option.filter, Option.or]
  · by_cases hv : v = []
    · subst hv
      cases d <;> simp [Option.filter, Option.or]
    · have hbne : (v != []) = true := by simpa using hv
      simp [hv, hbne, Option.filter, Option.or]

/-- Claim C1: for every template and values mapping, `substitute`
replaces each grammar match of a fresh left-to-right scan of the
original template — including repeated occurrences of the same name,
each decided independently by the policy "provided non-empty value,
else declared default, else the matched text itself" — and then rewrites
every escaped brace in the fully substituted result.  The final conjunct
is the specification's duplicate-name example,
`substitute("{a} and {a}", {a: "x"}) = "x and x"`. -/
theorem claim1_substitute (cmd : Str) (values : List (Str × Str)) :
    substitutePlaceholders cmd values
      = unescapeBraces (renderSegs values (scanSplit cmd))
    ∧ (∀ nm d, resolveMatch values nm d = specResolve values nm d)
    ∧ substitutePlaceholders ['{', 'a', '}', ' ', 'a', 'n', 'd', ' ', '{', 'a', '}']
        [(['a'], ['x'])] = ['x', ' ', 'a', 'n', 'd', ' ', 'x'] := by
  refine ⟨?_, fun nm d => resolveMatch_eq_specResolve values nm d, by decide⟩
  unfold substitutePlaceholders scanSplit
  rw [scanSubF_eq_renderSegs values cmd.length none cmd le_rfl]

/-! ## Claim C2: parse -/

/-- Prepending literal text to a scan does not change its match list. -/
theorem consGap_pairs (c : Char) (r : List Seg × Str) :
    ((consGap c r).1).map (fun seg => (seg.name, seg.dflt))
      = r.1.map (fun seg => (seg.name, seg.dflt)) := by
  rcases r with ⟨segs, tail⟩
  cases segs with
  | nil => rfl
  | cons seg rest => rfl

/-- The `exec` loop with its seen-set computes exactly first-occurrence
deduplication over the matches of one fresh scan. -/
theorem parseLoopF_eq_dedup :
    ∀ (fuel : Nat) (seen : List Str) (prev : Option Char) (cs : Str),
    cs.length ≤ fuel →
    parseLoopF fuel seen prev cs
      = (dedupFirst seen
          ((scanSplitF fuel prev cs).1.map (fun seg => (seg.name, seg.dflt)))).map
          mkPlaceholder := by
  intro fuel
  induction fuel with
  | zero =>
    intro seen prev cs hf
    have : cs = [] := List.eq_nil_of_length_eq_zero (Nat.le_zero.mp hf)
    simp [this, parseLoopF, scanSplitF, dedupFirst]
  | succ fuel ih =>
    intro seen prev cs hf
    match cs with
    | [] => simp [parseLoopF, scanSplitF, dedupFirst]
    | c :: rest =>
      have hflen : rest.length ≤ fuel := by simpa using hf
      by_cases hp : prev = some '\\'
      · simp only [parseLoopF, scanSplitF, hp, if_true]
        rw [consGap_pairs, ih seen (some c) rest hflen]
      · rcases htry : tryMatchAt (c :: rest) with _ | ⟨nm, d, rem⟩
        · simp only [parseLoopF, scanSplitF, hp, if_false, htry]
          rw [consGap_pairs, ih seen (some c) rest hflen]
        · have hrem : rem.length ≤ fuel := by
            have := tryMatchAt_length htry
            simp at this
            omega
          simp only [parseLoopF, scanSplitF, hp, if_false, htry, List.map_cons,
            dedupFirst]
          by_cases hseen : nm ∈ seen
          · simp only [hseen, if_true]
            exact ih seen (some '}') rem hrem
          · simp only [hseen, if_false, List.map_cons]
            rw [ih (nm :: seen) (some '}') rem hrem]
            rfl

/-- Names already seen never reappear among deduplicated matches. -/
theorem dedupFirst_not_mem : ∀ (l : List (Str × Option Str)) (seen : List Str)
    (n : Str), n ∈ seen → n ∉ (dedupFirst seen l).map Prod.fst := by
  intro l
  induction l with
  | nil => intro seen n _; simp [dedupFirst]
  | cons p rest ih =>
    intro seen n hn
    rcases p with ⟨nm, d⟩
    by_cases hseen : nm ∈ seen
    · simpa [dedupFirst, hseen] using ih seen n hn
    · have hne : nm ≠ n := fun he => hseen (he ▸ hn)
      simp only [dedupFirst, hseen, if_false, List.map_cons, List.mem_cons]
      rintro (h | h)
      · exact hne h.symm
      · exact ih (nm :: seen) n (List.mem_cons_of_mem nm hn) h

/-- First-occurrence deduplication yields pairwise-distinct names. -/
theorem dedupFirst_nodup : ∀ (l : List (Str × Option Str)) (seen : List Str),
    ((dedupFirst seen l).map Prod.fst).Nodup := by
  intro l
  induction l with
  | nil => intro seen; simp [dedupFirst]
  | cons p rest ih =>
    intro seen
    rcases p with ⟨nm, d⟩
    by_cases hseen : nm ∈ seen
    · simpa [dedupFirst, hseen] using ih seen
    · simp only [dedupFirst, hseen, if_false, List.map_cons, List.nodup_cons]
      exact ⟨dedupFirst_not_mem rest (nm :: seen) nm (List.mem_cons_self nm seen),
        ih (nm :: seen)⟩

/-- The greedy matcher recognizes exactly the declarative grammar. -/
theorem tryMatchAt_iff_spec (cs nm : Str) (d : Option Str) (rem : Str) :
    tryMatchAt cs = some (nm, d, rem) ↔ specGrammarMatch cs nm d rem := by
  constructor
  · intro h
    unfold tryMatchAt at h
    split at h
    case _ c rest =>
      split at h
      · rename_i hstart
        split at h
        case _ rem' heq =>
          simp only [Option.some.injEq, Prod.mk.injEq] at h
          obtain ⟨hnm, hd, hrem⟩ := h
          subst hnm
          subst hrem
          subst hd
          have hdecomp : rest = rest.takeWhile isNameChar ++ '}' :: rem' := by
            conv_lhs => rw [← List.takeWhile_append_dropWhile isNameChar rest]
            rw [heq]
          refine ⟨?_, ⟨c, rest.takeWhile isNameChar, rfl, hstart,
            fun x hx => List.mem_takeWhile_imp hx⟩, by simp⟩
          conv_lhs => rw [hdecomp]
          simp [matchedTextOf]
        case _ rem₁ heq =>
          split at h
          case _ rem₂ heq₂ =>
            simp only [Option.some.injEq, Prod.mk.injEq] at h
            obtain ⟨hnm, hd, hrem⟩ := h
            subst hnm
            subst hrem
            subst hd
            have hdecomp : rest = rest.takeWhile isNameChar ++ ':' :: rem₁ := by
              conv_lhs => rw [← List.takeWhile_append_dropWhile isNameChar rest]
              rw [heq]
            have hdecomp₂ : rem₁ = rem₁.takeWhile (fun x => x != '}') ++ '}' :: rem₂ := by
              conv_lhs => rw [← List.takeWhile_append_dropWhile
                (fun x => x != '}') rem₁]
              rw [heq₂]
            refine ⟨?_, ⟨c, rest.takeWhile isNameChar, rfl, hstart,
              fun x hx => List.mem_takeWhile_imp hx⟩, ?_⟩
            · conv_lhs => rw [hdecomp]
              conv_lhs => rw [hdecomp₂]
              simp [matchedTextOf]
            · intro dv hdv
              obtain rfl := Option.some.inj hdv
              intro hmem
              have := List.mem_takeWhile_imp hmem
              simp at this
          · exact absurd h (by simp)
        · exact absurd h (by simp)
      · exact absurd h (by simp)
    · exact absurd h (by simp)
  · rintro ⟨hcs, ⟨c, nmRest, hnm, hstart, hchars⟩, hd⟩
    subst hnm
    subst hcs
    cases d with
    | none =>
      have e1 : matchedTextOf (c :: nmRest) none ++ rem
          = '{' :: c :: (nmRest ++ '}' :: rem) := by
        simp [matchedTextOf]
      rw [e1]
      have htw : (nmRest ++ '}' :: rem).takeWhile isNameChar = nmRest :=
        takeWhile_eq_of_all _ _ _ _ hchars (by decide)
      have hdw : (nmRest ++ '}' :: rem).dropWhile isNameChar = '}' :: rem :=
        dropWhile_eq_of_all _ _ _ _ hchars (by decide)
      simp [tryMatchAt, hstart, htw, hdw]
    | some dv =>
      have hdv : '}' ∉ dv := hd dv rfl
      have hdvchars : ∀ x ∈ dv, (x != '}') = true := by
        intro x hx
        have : x ≠ '}' := fun he => hdv (he ▸ hx)
        simpa using this
      have e1 : matchedTextOf (c :: nmRest) (some dv) ++ rem
          = '{' :: c :: (nmRest ++ ':' :: (dv ++ '}' :: rem)) := by
        simp [matchedTextOf]
      rw [e1]
      have htw : (nmRest ++ ':' :: (dv ++ '}' :: rem)).takeWhile isNameChar = nmRest :=
        takeWhile_eq_of_all _ _ _ _ hchars (by decide)
      have hdw : (nmRest ++ ':' :: (dv ++ '}' :: rem)).dropWhile isNameChar
          = ':' :: (dv ++ '}' :: rem) :=
        dropWhile_eq_of_all _ _ _ _ hchars (by decide)
      have htw₂ : (dv ++ '}' :: rem).takeWhile (fun x => x != '}') = dv :=
        takeWhile_eq_of_all _ _ _ _ hdvchars (by decide)
      have hdw₂ : (dv ++ '}' :: rem).dropWhile (fun x => x != '}') = '}' :: rem :=
        dropWhile_eq_of_all _ _ _ _ hdvchars (by decide)
      simp [tryMatchAt, hstart, htw, hdw, htw₂, hdw₂]

/-- Claim C2: `parse` emits, in order of first character position of the
non-overlapping grammar matches of a fresh left-to-right scan, one
placeholder per first-occurring name (later matches with an
already-emitted name are skipped), where each placeholder records the
captured name, the optional default (absent exactly when no `:` section
was present), `required` true exactly when the default is absent, and
the exact matched text (all enforced by `mkPlaceholder`); a template
with no grammar match yields the empty sequence; and the matcher
recognizes exactly the declarative placeholder grammar. -/
theorem claim2_parse (cmd : Str) :
    parsePlaceholders cmd = (dedupFirst [] (rawMatches cmd)).map mkPlaceholder
    ∧ ((parsePlaceholders cmd).map Placeholder.name).Nodup
    ∧ (parsePlaceholders cmd).isEmpty = (rawMatches cmd).isEmpty
    ∧ (∀ cs nm d rem, tryMatchAt cs = some (nm, d, rem) ↔ specGrammarMatch cs nm d rem) := by
  have hmain : parsePlaceholders cmd = (dedupFirst [] (rawMatches cmd)).map mkPlaceholder :=
    parseLoopF_eq_dedup cmd.length [] none cmd le_rfl
  refine ⟨hmain, ?_, ?_, fun cs nm d rem => tryMatchAt_iff_spec cs nm d rem⟩
  · rw [hmain, List.map_map]
    have hcomp : Placeholder.name ∘ mkPlaceholder
        = (Prod.fst : Str × Option Str → Str) :=
      funext (fun p => rfl)
    rw [hcomp]
    exact dedupFirst_nodup (rawMatches cmd) []
  · rw [hmain]
    rcases hraw : rawMatches cmd with _ | ⟨⟨nm, dd⟩, rest⟩
    · simp [dedupFirst]
    · simp [dedupFirst]

/-! ## Claim C10: inserted text is not rescanned, but is unescaped -/

/-- The substitution scan of an empty suffix is empty at any fuel. -/
theorem scanSubF_nil (values : List (Str × Str)) (fuel : Nat) (prev : Option Char) :
    scanSubF values fuel prev [] = [] := by
  cases fuel with
  | zero => rfl
  | succ fuel => rfl

/-- One replacement step of the substitution scan. -/
theorem scanSubF_match (values : List (Str × Str)) (fuel : Nat) (prev : Option Char)
    (c : Char) (rest nm : Str) (d : Option Str) (rem : Str)
    (hp : ¬ prev = some '\\') (ht : tryMatchAt (c :: rest) = some (nm, d, rem)) :
    scanSubF values (fuel + 1) prev (c :: rest)
      = resolveMatch values nm d ++ scanSubF values fuel (some '}') rem := by
  simp only [scanSubF, hp, if_false, ht]

/-- Claim C10: substitution is single-pass over the original template
while unescaping runs over the fully substituted string.  A value bound
to the single slot of template `{a}` is emitted with only the global
unescape pass applied — even when the value itself looks like a
placeholder and the mapping binds further names (no re-interpretation) —
and likewise a declared default is emitted through the unescape pass, so
escaped braces inside values or defaults become bare braces. -/
theorem claim10_single_pass (v : Str) (values' : List (Str × Str)) (d : Str)
    (hv : v ≠ []) (hd : '}' ∉ d) :
    substitutePlaceholders ['{', 'a', '}'] ((['a'], v) :: values') = unescapeBraces v
    ∧ substitutePlaceholders ('{' :: 'a' :: ':' :: (d ++ ['}'])) [] = unescapeBraces d := by
  constructor
  · have htry : tryMatchAt ['{', 'a', '}'] = some (['a'], none, []) := by decide
    unfold substitutePlaceholders
    have hlen : (['{', 'a', '}'] : Str).length = 2 + 1 := rfl
    rw [hlen, scanSubF_match _ 2 none '{' ['a', '}'] ['a'] none [] (by simp) htry,
      scanSubF_nil, List.append_nil]
    simp [resolveMatch, lookupV, hv]
  · have htry : tryMatchAt ('{' :: 'a' :: ':' :: (d ++ ['}']))
        = some (['a'], some d, []) := by
      apply (tryMatchAt_iff_spec _ _ _ _).mpr
      refine ⟨by simp [matchedTextOf], ⟨'a', [], rfl, by decide, by simp⟩, ?_⟩
      intro dv hdv
      obtain rfl := Option.some.inj hdv
      exact hd
    unfold substitutePlaceholders
    rw [List.length_cons,
      scanSubF_match [] _ none '{' ('a' :: ':' :: (d ++ ['}'])) ['a'] (some d) []
        (by simp) htry,
      scanSubF_nil, List.append_nil]
    simp [resolveMatch, lookupV]

/-- Witness for C10: the value is itself placeholder-shaped (`{b}`, with
`b` bound in the mapping, yet not substituted), and the default contains
an escaped brace that the final pass unescapes. -/
theorem claim10_witness :
    substitutePlaceholders ['{', 'a', '}']
        ((['a'], ['{', 'b', '}']) :: [(['b'], ['y'])]) = unescapeBraces ['{', 'b', '}']
    ∧ substitutePlaceholders ('{' :: 'a' :: ':' :: (['\\', '{', 'x'] ++ ['}'])) []
        = unescapeBraces ['\\', '{', 'x'] :=
  claim10_single_pass ['{', 'b', '}'] [(['b'], ['y'])] ['\\', '{', 'x']
    (by decide) (by decide)

/-! ## Claim C3: the shared regex cursor -/

/-- Claim C3 fails on the code; this theorem evaluates the model at the
failing input.  `hasPlaceholders` resets `lastIndex` before its `test`
call (so its own boolean is correct), but a successful `test` stores the
end of the match into the shared `lastIndex`, and `parsePlaceholders`
starts its `exec` loop from the shared cursor without resetting it:
after `hasPlaceholders("{a}")` (state 3), a `parsePlaceholders("{a}")`
call returns `[]`, whereas on a fresh engine (state 0) it returns the
placeholder `a` — so a `hasPlaceholders`/`parse` call sequence does not
behave as fresh-engine calls, contradicting the claim. -/
theorem claim3_lastIndex_leak :
    hasPlaceholdersS ['{', 'a', '}'] 0 = (true, 3)
    ∧ (parsePlaceholdersS ['{', 'a', '}'] 3).1 = []
    ∧ (parsePlaceholdersS ['{', 'a', '}'] 0).1
        = [{ name := ['a'], defaultValue := none, required := true,
             matchText := ['{', 'a', '}'] }]
    ∧ parsePlaceholders ['{', 'a', '}']
        = [{ name := ['a'], defaultValue := none, required := true,
             matchText := ['{', 'a', '}'] }]
    ∧ hasPlaceholders ['{', 'a', '}'] = true := by
  refine ⟨by decide, by decide, by decide, by decide, by decide⟩

/-! ## Claim C7: positional argument binding -/

theorem lookupV_setV_self : ∀ (m : List (Str × Str)) (k v : Str),
    lookupV (setV m k v) k = some v := by
  intro m k v
  induction m with
  | nil => simp [setV, lookupV]
  | cons p rest ih =>
    rcases p with ⟨k', v'⟩
    by_cases hk : k' = k
    · simp [setV, hk, lookupV]
    · simp [setV, hk, lookupV, ih]

theorem lookupV_setV_ne : ∀ (m : List (Str × Str)) (k v n : Str), k ≠ n →
    lookupV (setV m k v) n = lookupV m n := by
  intro m k v n hkn
  induction m with
  | nil => simp [setV, lookupV, hkn]
  | cons p rest ih =>
    rcases p with ⟨k', v'⟩
    by_cases hk : k' = k
    · subst hk
      simp [setV, lookupV, hkn]
    · simp [setV, hk, lookupV, ih]

/-- Lookup after a left fold of property assignments: the last assignment
to the name wins; otherwise the base record is consulted. -/
theorem lookupV_foldl_setV {α : Type} (key : α → Str) (val : α → Str) :
    ∀ (ps : List α) (m : List (Str × Str)) (n : Str),
    lookupV (ps.foldl (fun acc p => setV acc (key p) (val p)) m) n
      = match ps.reverse.find? (fun p => key p == n) with
        | some p => some (val p)
        | none => lookupV m n := by
  intro ps
  induction ps with
  | nil => intro m n; simp
  | cons p rest ih =>
    intro m n
    simp only [List.foldl_cons, List.reverse_cons, List.find?_append]
    rw [ih (setV m (key p) (val p)) n]
    rcases hfind : rest.reverse.find? (fun q => key q == n) with _ | q
    · simp only [Option.none_or]
      by_cases hkey : key p = n
      · have hb : (key p == n) = true := by simpa using hkey
        simp only [List.find?_cons, List.find?_nil, hb]
        subst hkey
        simp [lookupV_setV_self]
      · have hb : (key p == n) = false := by simpa using hkey
        simp only [List.find?_cons, List.find?_nil, hb]
        simp [lookupV_setV_ne m (key p) (val p) n hkey]
    · simp [Option.or]

/-- Lookup in the seeded record: the last placeholder with the name
provides its default (or empty when required). -/
theorem lookupV_buildInitialValues (phs : List Placeholder) (n : Str) :
    lookupV (buildInitialValues phs) n
      = match phs.reverse.find? (fun ph => ph.name == n) with
        | some ph => some (ph.defaultValue.getD [])
        | none => none := by
  have h := lookupV_foldl_setV Placeholder.name (fun ph => ph.defaultValue.getD []) phs [] n
  unfold buildInitialValues
  rcases hf : phs.reverse.find? (fun ph => ph.name == n) with _ | ph
  · rw [hf] at h
    rw [hf]
    simpa [lookupV] using h
  · rw [hf] at h
    rw [hf]
    simpa using h

/-- Lookup after positional binding: the last bound index with the name
wins, else the seeded record is consulted. -/
theorem lookupV_mapArgs (phs : List Placeholder) (args : List Str) (n : Str) :
    lookupV (mapArgsToPlaceholders phs args) n
      = match (phs.zip args).reverse.find? (fun pa => pa.1.name == n) with
        | some pa => some pa.2
        | none => lookupV (buildInitialValues phs) n := by
  have h := lookupV_foldl_setV (fun pa => pa.1.name) Prod.snd (phs.zip args)
    (buildInitialValues phs) n
  unfold mapArgsToPlaceholders
  rcases hf : (phs.zip args).reverse.find? (fun pa => pa.1.name == n) with _ | pa
  · rw [hf] at h
    rw [hf]
    simpa using h
  · rw [hf] at h
    rw [hf]
    simpa using h

/-- A list with exactly one element satisfying the test finds it. -/
theorem find?_eq_some_of_unique {α : Type} (pred : α → Bool) :
    ∀ (l : List α) (x : α), x ∈ l → pred x = true →
    (∀ y ∈ l, pred y = true → y = x) → l.find? pred = some x := by
  intro l
  induction l with
  | nil => intro x hx _ _; simp at hx
  | cons a rest ih =>
    intro x hx hpx huniq
    by_cases hpa : pred a = true
    · have hax : a = x := huniq a (by simp) hpa
      subst hax
      rw [List.find?_cons_of_pos _ hpa]
    · have hxa : x ≠ a := fun he => hpa (he ▸ hpx)
      have hx' : x ∈ rest := by
        rcases List.mem_cons.mp hx with h | h
        · exact absurd h hxa
        · exact h
      rw [List.find?_cons_of_neg _ hpa]
      exact ih x hx' hpx (fun y hy hpy => huniq y (List.mem_cons_of_mem a hy) hpy)

theorem zip_take_length {α β : Type} : ∀ (l : List α) (l' : List β),
    l.zip (l'.take l.length) = l.zip l' := by
  intro l
  induction l with
  | nil => intro l'; simp
  | cons a rest ih =>
    intro l'
    cases l' with
    | nil => simp
    | cons b rest' =>
      simp only [List.length_cons, List.take_succ_cons, List.zip_cons_cons]
      rw [ih rest']

/-- Claim C7: positional binding seeds every placeholder name with its
default (empty when required) and then overwrites, unconditionally, the
name of the `i`-th placeholder with the `i`-th argument for every index
below both lengths — even when the argument is the empty string — so a
slot's final value is its argument when one exists and its seeded value
otherwise; arguments beyond the placeholder count are ignored. -/
theorem claim7_mapPositional (phs : List Placeholder) (args : List Str) (i : Nat)
    (hnd : (phs.map Placeholder.name).Nodup) (hi : i < phs.length) :
    lookupV (mapArgsToPlaceholders phs args) (phs[i].name)
      = some (if i < args.length then args.getD i []
              else phs[i].defaultValue.getD [])
    ∧ mapArgsToPlaceholders phs args = mapArgsToPlaceholders phs (args.take phs.length) := by
  have hinj : ∀ (j : Nat) (hj : j < phs.length), phs[j].name = phs[i].name → j = i := by
    intro j hj heq
    have hmj : j < (phs.map Placeholder.name).length := by simpa using hj
    have hmi : i < (phs.map Placeholder.name).length := by simpa using hi
    have h1 : (phs.map Placeholder.name)[j] = (phs.map Placeholder.name)[i] := by
      rw [List.getElem_map, List.getElem_map]
      exact heq
    exact (List.Nodup.getElem_inj_iff hnd).mp h1
  constructor
  · rw [lookupV_mapArgs]
    by_cases hargs : i < args.length
    · have hzi : i < (phs.zip args).length := by
        rw [List.length_zip]
        exact lt_min hi hargs
      have hfind : ((phs.zip args).reverse.find? (fun pa => pa.1.name == phs[i].name))
          = some (phs[i], args[i]) := by
        apply find?_eq_some_of_unique
        · rw [List.mem_reverse, List.mem_iff_getElem]
          exact ⟨i, hzi, List.getElem_zip⟩
        · simp
        · intro y hy hpy
          rw [List.mem_reverse, List.mem_iff_getElem] at hy
          obtain ⟨j, hj, hyj⟩ := hy
          have hjp : j < phs.length := by
            rw [List.length_zip] at hj
            omega
          have hja : j < args.length := by
            rw [List.length_zip] at hj
            omega
          have hyval : y = (phs[j], args[j]) := by
            rw [← hyj, List.getElem_zip]
          have hname : phs[j].name = phs[i].name := by
            have := hpy
            rw [hyval] at this
            simpa using this
          have := hinj j hjp hname
          subst this
          exact hyval
      rw [hfind]
      simp only [hargs, if_true]
      rw [List.getD_eq_getElem args [] hargs]
    · have hfind : ((phs.zip args).reverse.find? (fun pa => pa.1.name == phs[i].name))
          = none := by
        rw [List.find?_eq_none]
        intro y hy
        rw [List.mem_reverse, List.mem_iff_getElem] at hy
        obtain ⟨j, hj, hyj⟩ := hy
        have hjp : j < phs.length := by
          rw [List.length_zip] at hj
          omega
        have hja : j < args.length := by
          rw [List.length_zip] at hj
          omega
        have hyval : y = (phs[j], args[j]) := by
          rw [← hyj, List.getElem_zip]
        intro hpy
        have hname : phs[j].name = phs[i].name := by
          rw [hyval] at hpy
          simpa using hpy
        have := hinj j hjp hname
        omega
      rw [hfind]
      simp only [hargs, if_false]
      rw [lookupV_buildInitialValues]
      have hfind₂ : (phs.reverse.find? (fun ph => ph.name == phs[i].name))
          = some phs[i] := by
        apply find?_eq_some_of_unique
        · rw [List.mem_reverse, List.mem_iff_getElem]
          exact ⟨i, hi, rfl⟩
        · simp
        · intro y hy hpy
          rw [List.mem_reverse, List.mem_iff_getElem] at hy
          obtain ⟨j, hj, hyj⟩ := hy
          have hname : phs[j].name = phs[i].name := by
            rw [hyj]
            simpa using hpy
          have hji := hinj j hj hname
          subst hji
          exact hyj.symm
      rw [hfind₂]
  · unfold mapArgsToPlaceholders
    rw [zip_take_length phs args]

/-- Witness inputs for C7: the specification's example,
`mapPositional([remote:origin, branch:main], ["upstream"])`. -/
def phsEx : List Placeholder :=
  [{ name := ['r', 'e', 'm', 'o', 't', 'e'],
     defaultValue := some ['o', 'r', 'i', 'g', 'i', 'n'],
     required := false, matchText := [] },
   { name := ['b', 'r', 'a', 'n', 'c', 'h'],
     defaultValue := some ['m', 'a', 'i', 'n'],
     required := false, matchText := [] }]

/-- Witness argument list for C7. -/
def argsEx : List Str := [['u', 'p', 's', 't', 'r', 'e', 'a', 'm']]

/-- Witness for C7: `remote` is overwritten by the lone positional
argument, `branch` keeps its seeded default. -/
theorem claim7_witness :
    lookupV (mapArgsToPlaceholders phsEx argsEx) ['r', 'e', 'm', 'o', 't', 'e']
      = some ['u', 'p', 's', 't', 'r', 'e', 'a', 'm']
    ∧ lookupV (mapArgsToPlaceholders phsEx argsEx) ['b', 'r', 'a', 'n', 'c', 'h']
      = some ['m', 'a', 'i', 'n'] := by
  have h0 := (claim7_mapPositional phsEx argsEx 0 (by decide) (by decide)).1
  have h1 := (claim7_mapPositional phsEx argsEx 1 (by decide) (by decide)).1
  exact ⟨by simpa [phsEx, argsEx] using h0, by simpa [phsEx, argsEx] using h1⟩

/-! ## Claim C9: no mutation of the caller's array -/

theorem heapRead_append_lt (h : CmdHeap) (x : List Command) (r : Nat)
    (hr : r < h.length) : heapRead (h ++ [x]) r = heapRead h r := by
  simp [heapRead, List.getD_eq_getElem?_getD, List.getElem?_append, hr]

theorem heapRead_append_self (h : CmdHeap) (x : List Command) :
    heapRead (h ++ [x]) h.length = x := by
  simp [heapRead, List.getD_eq_getElem?_getD, List.getElem?_concat_length]

theorem heapRead_set_ne (h : CmdHeap) (i : Nat) (v : List Command) (r : Nat)
    (hir : i ≠ r) : heapRead (h.set i v) r = heapRead h r := by
  simp [heapRead, List.getD_eq_getElem?_getD, List.getElem?_set_ne hir]

theorem heapRead_set_self (h : CmdHeap) (i : Nat) (v : List Command)
    (hi : i < h.length) : heapRead (h.set i v) i = v := by
  simp [heapRead, List.getD_eq_getElem?_getD, List.getElem?_set_self hi]

/-- The only write of `sortCommandsCall` hits the freshly allocated copy,
so every pre-existing array is untouched. -/
theorem sortCommandsCall_frame (h : CmdHeap) (r q : Nat) (hq : q < h.length) :
    heapRead (sortCommandsCall h r).1 q = heapRead h q := by
  unfold sortCommandsCall jsSortInPlace
  simp only []
  rw [heapRead_set_ne _ _ _ _ (by omega), heapRead_append_lt _ _ _ hq]

/-- The returned value of `sortCommandsCall` is the sorted copy of the
caller's contents. -/
theorem sortCommandsCall_ret (h : CmdHeap) (r : Nat) :
    (sortCommandsCall h r).2 = sortCommands (heapRead h r) := by
  unfold sortCommandsCall jsSortInPlace sortCommands
  simp only []
  rw [heapRead_set_self _ _ _ (by simp), heapRead_append_self]

/-- Claim C9: `sortCommands` sorts a fresh copy (`[...commands]`) in
place and `searchCommands` only reads its input, so after either call
the caller's array still holds its original contents, while the returned
list is the value-level result. -/
theorem claim9_caller_array_unchanged (fuse : List Command → Str → List Command)
    (h : CmdHeap) (r : Nat) (query : Str) (hr : r < h.length) :
    heapRead (sortCommandsCall h r).1 r = heapRead h r
    ∧ (sortCommandsCall h r).2 = sortCommands (heapRead h r)
    ∧ heapRead (searchCommandsCall fuse h r query).1 r = heapRead h r
    ∧ (searchCommandsCall fuse h r query).2 = searchCommands fuse (heapRead h r) query := by
  refine ⟨sortCommandsCall_frame h r r hr, sortCommandsCall_ret h r, ?_, ?_⟩
  · unfold searchCommandsCall
    by_cases hq : (trimList query).isEmpty
    · rw [if_pos hq]
      exact sortCommandsCall_frame h r r hr
    · rw [if_neg hq]
      rw [sortCommandsCall_frame _ _ _ (by simp; omega)]
      exact heapRead_append_lt h _ r hr
  · unfold searchCommandsCall searchCommands
    by_cases hq : (trimList query).isEmpty
    · rw [if_pos hq, if_pos hq]
      exact sortCommandsCall_ret h r
    · rw [if_neg hq, if_neg hq]
      rw [sortCommandsCall_ret, heapRead_append_self]

/-- Concrete commands for witnesses: `b` is a favorite, `a` is not. -/
def cmdA : Command :=
  { id := ['a'], command := ['x'], description := none, favorite := false,
    createdAt := 0, updatedAt := 0, usageCount := 5, lastUsed := none }

/-- Second concrete witness command. -/
def cmdB : Command :=
  { id := ['b'], command := ['y'], description := none, favorite := true,
    createdAt := 0, updatedAt := 0, usageCount := 1, lastUsed := none }

/-- Witness for C9 on a one-array heap. -/
theorem claim9_witness :
    heapRead (sortCommandsCall [[cmdA, cmdB]] 0).1 0 = heapRead [[cmdA, cmdB]] 0
    ∧ (sortCommandsCall [[cmdA, cmdB]] 0).2 = sortCommands (heapRead [[cmdA, cmdB]] 0)
    ∧ heapRead (searchCommandsCall (fun cs _ => cs) [[cmdA, cmdB]] 0 ['a']).1 0
        = heapRead [[cmdA, cmdB]] 0
    ∧ (searchCommandsCall (fun cs _ => cs) [[cmdA, cmdB]] 0 ['a']).2
        = searchCommands (fun cs _ => cs) (heapRead [[cmdA, cmdB]] 0) ['a'] :=
  claim9_caller_array_unchanged (fun cs _ => cs) [[cmdA, cmdB]] 0 ['a'] (by decide)

/-! ## Claim C5: the default ordering -/

theorem lexOrd_swap : ∀ (a b : Str), lexOrd b a = (lexOrd a b).swap := by
  intro a
  induction a with
  | nil => intro b; cases b <;> rfl
  | cons x xs ih =>
    intro b
    cases b with
    | nil => rfl
    | cons y ys =>
      simp only [lexOrd]
      rcases lt_trichotomy x y with h | h | h
      · rw [if_neg (lt_asymm h), if_pos h, if_pos h]
        rfl
      · subst h
        simp only [lt_self_iff_false, if_false]
        exact ih ys
      · rw [if_pos h, if_neg (lt_asymm h), if_pos h]
        rfl

theorem lexOrd_eq_iff : ∀ (a b : Str), lexOrd a b = .eq ↔ a = b := by
  intro a
  induction a with
  | nil => intro b; cases b <;> simp [lexOrd]
  | cons x xs ih =>
    intro b
    cases b with
    | nil => simp [lexOrd]
    | cons y ys =>
      simp only [lexOrd]
      rcases lt_trichotomy x y with h | h | h
      · rw [if_pos h]
        constructor
        · intro hc; simp at hc
        · intro hc
          simp only [List.cons.injEq] at hc
          exact absurd hc.1 (ne_of_lt h)
      · subst h
        rw [if_neg (lt_irrefl x), if_neg (lt_irrefl x)]
        simp [ih ys]
      · rw [if_neg (lt_asymm h), if_pos h]
        constructor
        · intro hc; simp at hc
        · intro hc
          simp only [List.cons.injEq] at hc
          exact absurd hc.1.symm (ne_of_lt h)

theorem lexOrd_lt_trans : ∀ (a b c : Str), lexOrd a b = .lt → lexOrd b c = .lt →
    lexOrd a c = .lt := by
  intro a
  induction a with
  | nil =>
    intro b c hab hbc
    cases c with
    | nil =>
      cases b with
      | nil => simp [lexOrd] at hab
      | cons y ys => simp [lexOrd] at hbc
    | cons z zs => simp [lexOrd]
  | cons x xs ih =>
    intro b c hab hbc
    cases b with
    | nil => simp [lexOrd] at hab
    | cons y ys =>
      cases c with
      | nil => simp [lexOrd] at hbc
      | cons z zs =>
        simp only [lexOrd] at hab hbc ⊢
        by_cases hxy : x < y
        · by_cases hyz : y < z
          · rw [if_pos (lt_trans hxy hyz)]
          · by_cases hzy : z < y
            · rw [if_neg hyz, if_pos hzy] at hbc
              simp at hbc
            · have hyz2 : y = z := le_antisymm (not_lt.mp hzy) (not_lt.mp hyz)
              subst hyz2
              rw [if_pos hxy]
        · by_cases hyx : y < x
          · rw [if_neg hxy, if_pos hyx] at hab
            simp at hab
          · have hxy2 : x = y := le_antisymm (not_lt.mp hyx) (not_lt.mp hxy)
            subst hxy2
            rw [if_neg (lt_irrefl x), if_neg (lt_irrefl x)] at hab
            by_cases hxz : x < z
            · rw [if_pos hxz]
            · by_cases hzx : z < x
              · rw [if_neg hxz, if_pos hzx] at hbc
                simp at hbc
              · have hxz2 : x = z := le_antisymm (not_lt.mp hzx) (not_lt.mp hxz)
                subst hxz2
                rw [if_neg (lt_irrefl x), if_neg (lt_irrefl x)] at hbc ⊢
                exact ih ys zs hab hbc

/-- The comparator is antisymmetric in sign. -/
theorem compareCommands_swap (a b : Command) :
    compareCommands b a = -compareCommands a b := by
  unfold compareCommands
  by_cases hf : a.favorite = b.favorite
  · have hf1 : ¬ (b.favorite ≠ a.favorite) := fun hc => hc hf.symm
    have hf2 : ¬ (a.favorite ≠ b.favorite) := fun hc => hc hf
    rw [if_neg hf1, if_neg hf2]
    by_cases hu : a.usageCount = b.usageCount
    · have hu1 : ¬ (b.usageCount ≠ a.usageCount) := fun hc => hc hu.symm
      have hu2 : ¬ (a.usageCount ≠ b.usageCount) := fun hc => hc hu
      rw [if_neg hu1, if_neg hu2]
      unfold localeCompareInt
      rw [lexOrd_swap a.id b.id]
      rcases lexOrd a.id b.id <;> rfl
    · have hu1 : b.usageCount ≠ a.usageCount := fun hc => hu hc.symm
      rw [if_pos hu1, if_pos hu]
      omega
  · have hf1 : b.favorite ≠ a.favorite := fun hc => hf hc.symm
    rw [if_pos hf1, if_pos hf]
    rcases ha : a.favorite <;> rcases hb : b.favorite <;> simp_all

/-- Zero comparator value characterizes equal ordering keys. -/
theorem compareCommands_eq_zero_iff (a b : Command) :
    compareCommands a b = 0 ↔ cmdKey a = cmdKey b := by
  unfold compareCommands cmdKey
  by_cases hf : a.favorite = b.favorite
  · rw [if_neg (fun hc => hc hf)]
    by_cases hu : a.usageCount = b.usageCount
    · rw [if_neg (fun hc => hc hu)]
      unfold localeCompareInt
      rcases hlex : lexOrd a.id b.id with _ | _ | _
      · simp only [hlex]
        constructor
        · intro hc; simp at hc
        · intro hc
          simp only [Prod.mk.injEq] at hc
          have := (lexOrd_eq_iff a.id b.id).mpr hc.2.2
          rw [this] at hlex
          simp at hlex
      · simp only [hlex, Prod.mk.injEq]
        have hid := (lexOrd_eq_iff a.id b.id).mp hlex
        simp [hf, hu, hid]
      · simp only [hlex]
        constructor
        · intro hc; simp at hc
        · intro hc
          simp only [Prod.mk.injEq] at hc
          have := (lexOrd_eq_iff a.id b.id).mpr hc.2.2
          rw [this] at hlex
          simp at hlex
    · rw [if_pos hu]
      constructor
      · intro hc
        exact absurd (by omega : a.usageCount = b.usageCount) hu
      · intro hc
        simp only [Prod.mk.injEq] at hc
        exact absurd hc.2.1 hu
  · rw [if_pos hf]
    constructor
    · intro hc
      rcases ha : a.favorite <;> simp [ha] at hc
    · intro hc
      simp only [Prod.mk.injEq] at hc
      exact absurd hc.1 hf

/-- The comparator's strict sign agrees with the specification's
ordering chain. -/
theorem compareCommands_lt_iff_specLT (a b : Command) :
    compareCommands a b < 0 ↔ specLT a b := by
  unfold compareCommands specLT
  by_cases hf : a.favorite = b.favorite
  · have hf2 : ¬ (a.favorite ≠ b.favorite) := fun hc => hc hf
    rw [if_neg hf2]
    by_cases hu : a.usageCount = b.usageCount
    · have hu2 : ¬ (a.usageCount ≠ b.usageCount) := fun hc => hc hu
      rw [if_neg hu2]
      unfold localeCompareInt
      rcases hlex : lexOrd a.id b.id with _ | _ | _
      · simp only [hlex]
        constructor
        · intro _
          exact Or.inr (Or.inr ⟨hf, hu, by trivial⟩)
        · intro _
          norm_num
      · simp only [hlex]
        constructor
        · intro hc; simp at hc
        · rintro (⟨h1, h2⟩ | ⟨h1, h2⟩ | ⟨h1, h2, h3⟩)
          · rw [h1, h2] at hf; simp at hf
          · omega
          · simp at h3
      · simp only [hlex]
        constructor
        · intro hc; norm_num at hc
        · rintro (⟨h1, h2⟩ | ⟨h1, h2⟩ | ⟨h1, h2, h3⟩)
          · rw [h1, h2] at hf; simp at hf
          · omega
          · simp at h3
    · rw [if_pos hu]
      constructor
      · intro hlt
        exact Or.inr (Or.inl ⟨hf, by omega⟩)
      · rintro (⟨h1, h2⟩ | ⟨h1, h2⟩ | ⟨h1, h2, h3⟩)
        · rw [h1, h2] at hf; simp at hf
        · omega
        · exact absurd h2 hu
  · rw [if_pos hf]
    by_cases ha : a.favorite = true
    · have hb : b.favorite = false := by
        rcases hbv : b.favorite with _ | _
        · rfl
        · exact absurd (ha.trans hbv.symm) hf
      rw [if_pos ha]
      constructor
      · intro _
        exact Or.inl ⟨ha, hb⟩
      · intro _
        norm_num
    · rw [if_neg ha]
      constructor
      · intro hc
        norm_num at hc
      · rintro (⟨h1, h2⟩ | ⟨h1, h2⟩ | ⟨h1, h2, h3⟩)
        · exact absurd h1 ha
        · exact absurd h1 hf
        · exact absurd h1 hf

/-- The specification's chain is transitive. -/
theorem specLT_trans (a b c : Command) (h1 : specLT a b) (h2 : specLT b c) :
    specLT a c := by
  rcases h1 with ⟨ha1, hb1⟩ | ⟨hf1, hu1⟩ | ⟨hf1, hu1, hl1⟩
  · rcases h2 with ⟨hb2, hc2⟩ | ⟨hf2, hu2⟩ | ⟨hf2, hu2, hl2⟩
    · rw [hb1] at hb2; simp at hb2
    · exact Or.inl ⟨ha1, hf2 ▸ hb1⟩
    · exact Or.inl ⟨ha1, hf2 ▸ hb1⟩
  · rcases h2 with ⟨hb2, hc2⟩ | ⟨hf2, hu2⟩ | ⟨hf2, hu2, hl2⟩
    · exact Or.inl ⟨hf1.trans hb2, hc2⟩
    · exact Or.inr (Or.inl ⟨hf1.trans hf2, by omega⟩)
    · exact Or.inr (Or.inl ⟨hf1.trans hf2, by omega⟩)
  · rcases h2 with ⟨hb2, hc2⟩ | ⟨hf2, hu2⟩ | ⟨hf2, hu2, hl2⟩
    · exact Or.inl ⟨hf1.trans hb2, hc2⟩
    · exact Or.inr (Or.inl ⟨hf1.trans hf2, by omega⟩)
    · exact Or.inr (Or.inr ⟨hf1.trans hf2, hu1.trans hu2,
        lexOrd_lt_trans a.id b.id c.id hl1 hl2⟩)

/-- The specification's chain is asymmetric. -/
theorem specLT_asymm (a b : Command) (h : specLT a b) : ¬ specLT b a := by
  intro h2
  rw [← compareCommands_lt_iff_specLT] at h h2
  rw [compareCommands_swap] at h2
  omega

/-- The specification's chain is total on records with distinct keys. -/
theorem specLT_total (a b : Command) (hk : cmdKey a ≠ cmdKey b) :
    specLT a b ∨ specLT b a := by
  rw [← compareCommands_lt_iff_specLT, ← compareCommands_lt_iff_specLT,
    show compareCommands b a = -compareCommands a b from compareCommands_swap a b]
  have hne : compareCommands a b ≠ 0 :=
    fun h0 => hk ((compareCommands_eq_zero_iff a b).mp h0)
  omega

/-- A record with the same ordering key compares identically on the left. -/
theorem compareCommands_congr_left (a b c : Command) (hk : cmdKey a = cmdKey b) :
    compareCommands a c = compareCommands b c := by
  unfold cmdKey at hk
  simp only [Prod.mk.injEq] at hk
  unfold compareCommands
  rw [hk.1, hk.2.1, hk.2.2]

/-- A record with the same ordering key compares identically on the right. -/
theorem compareCommands_congr_right (a b c : Command) (hk : cmdKey b = cmdKey c) :
    compareCommands a b = compareCommands a c := by
  unfold cmdKey at hk
  simp only [Prod.mk.injEq] at hk
  unfold compareCommands
  rw [hk.1, hk.2.1, hk.2.2]

/-- Transitivity of the boolean sort order. -/
theorem cmdLE_trans (a b c : Command) (h1 : cmdLE a b = true) (h2 : cmdLE b c = true) :
    cmdLE a c = true := by
  unfold cmdLE at h1 h2 ⊢
  have h1le : compareCommands a b ≤ 0 := of_decide_eq_true h1
  have h2le : compareCommands b c ≤ 0 := of_decide_eq_true h2
  apply decide_eq_true
  rcases lt_or_eq_of_le h1le with h1lt | h1eq
  · rcases lt_or_eq_of_le h2le with h2lt | h2eq
    · have hs := specLT_trans a b c ((compareCommands_lt_iff_specLT a b).mp h1lt)
        ((compareCommands_lt_iff_specLT b c).mp h2lt)
      have := (compareCommands_lt_iff_specLT a c).mpr hs
      omega
    · have hkey := (compareCommands_eq_zero_iff b c).mp h2eq
      have hcc := compareCommands_congr_right a b c hkey
      omega
  · have hkey := (compareCommands_eq_zero_iff a b).mp h1eq
    have hcc := compareCommands_congr_left a b c hkey
    omega

/-- Totality of the boolean sort order. -/
theorem cmdLE_total (a b : Command) : (cmdLE a b || cmdLE b a) = true := by
  unfold cmdLE
  have := compareCommands_swap a b
  rcases le_or_lt (compareCommands a b) 0 with h | h
  · simp [decide_eq_true h]
  · have : compareCommands b a ≤ 0 := by omega
    simp [decide_eq_true this]

/-- Claim C5: `sortDefault` returns a permutation of its input that is
sorted by the comparator chain — favorites first, then usage count
descending, then ascending id — and that chain, read strictly, agrees
with the specification's ordering and is a strict total order on records
whose (favorite, usageCount, id) keys differ. -/
theorem claim5_sortDefault (cs : List Command) :
    (sortCommands cs).Perm cs
    ∧ (sortCommands cs).Pairwise (fun a b => compareCommands a b ≤ 0)
    ∧ (∀ a b, compareCommands a b < 0 ↔ specLT a b)
    ∧ (∀ a b c, specLT a b → specLT b c → specLT a c)
    ∧ (∀ a b, specLT a b → ¬ specLT b a)
    ∧ (∀ a b, cmdKey a ≠ cmdKey b → specLT a b ∨ specLT b a) := by
  refine ⟨List.mergeSort_perm cs cmdLE, ?_, compareCommands_lt_iff_specLT,
    specLT_trans, specLT_asymm, specLT_total⟩
  have hs := List.sorted_mergeSort cmdLE_trans cmdLE_total cs
  exact hs.imp (fun h => of_decide_eq_true h)

/-- Witness for C5: the favorite `b` sorts strictly before the
non-favorite `a` despite `a` having more uses. -/
theorem claim5_witness :
    (sortCommands [cmdA, cmdB]).Perm [cmdA, cmdB] ∧ specLT cmdB cmdA :=
  ⟨(claim5_sortDefault [cmdA, cmdB]).1,
    ((claim5_sortDefault []).2.2.1 cmdB cmdA).mp (by decide)⟩

/-! ## Claim C4: search -/

/-- Two sorted lists that are permutations of one another coincide, when
the order is antisymmetric on the elements involved. -/
theorem sorted_perm_unique {α : Type} {le : α → α → Bool} :
    ∀ (l₁ l₂ : List α), l₁.Perm l₂ →
    l₁.Pairwise (fun a b => le a b = true) → l₂.Pairwise (fun a b => le a b = true) →
    (∀ a ∈ l₁, ∀ b ∈ l₁, le a b = true → le b a = true → a = b) →
    l₁ = l₂ := by
  intro l₁
  induction l₁ with
  | nil =>
    intro l₂ hp _ _ _
    exact hp.nil_eq
  | cons a t₁ ih =>
    intro l₂ hp hs₁ hs₂ hanti
    cases l₂ with
    | nil =>
      have := hp.length_eq
      simp at this
    | cons b t₂ =>
      have hab : a = b := by
        have hainl2 : a ∈ b :: t₂ := hp.mem_iff.mp (by simp)
        have hbinl1 : b ∈ a :: t₁ := hp.mem_iff.mpr (by simp)
        rcases List.mem_cons.mp hainl2 with h | h
        · exact h
        · rcases List.mem_cons.mp hbinl1 with h2 | h2
          · exact h2.symm
          · have hle1 : le a b = true := (List.pairwise_cons.mp hs₁).1 b h2
            have hle2 : le b a = true := (List.pairwise_cons.mp hs₂).1 a h
            exact hanti a (by simp) b (List.mem_cons_of_mem a h2) hle1 hle2
      subst hab
      have hpt : t₁.Perm t₂ := hp.cons_inv
      rw [ih t₂ hpt (List.pairwise_cons.mp hs₁).2 (List.pairwise_cons.mp hs₂).2
        (fun x hx y hy hxy hyx =>
          hanti x (List.mem_cons_of_mem a hx) y (List.mem_cons_of_mem a hy) hxy hyx)]

/-- Key-distinctness is symmetric. -/
theorem cmdKey_ne_symm : Symmetric (fun a b : Command => cmdKey a ≠ cmdKey b) :=
  fun _ _ h he => h he.symm

/-- Mutual boolean order with distinct keys is impossible. -/
theorem cmdLE_antisymm_key (a b : Command) (h1 : cmdLE a b = true)
    (h2 : cmdLE b a = true) : cmdKey a = cmdKey b := by
  unfold cmdLE at h1 h2
  have h1le : compareCommands a b ≤ 0 := of_decide_eq_true h1
  have h2le : compareCommands b a ≤ 0 := of_decide_eq_true h2
  have hsw := compareCommands_swap a b
  exact (compareCommands_eq_zero_iff a b).mp (by omega)

/-- Claim C4: with the external matcher abstracted, `search` returns the
whole collection in default order when the trimmed query is empty,
`sortDefault` of the matched subset otherwise; an empty collection
yields an empty result for any query (given that the matcher selects
from its input); and when the matched records have pairwise-distinct
ordering keys the output is the same for any two matchers returning the
same multiset — the presentation order is fixed by the favorite/usage/id
chain alone, not by the matcher's relevance order. -/
theorem claim4_search (fuse fuse₂ : List Command → Str → List Command)
    (commands : List Command) (query : Str) :
    ((trimList query).isEmpty = true →
      searchCommands fuse commands query = sortCommands commands)
    ∧ ((trimList query).isEmpty = false →
      searchCommands fuse commands query = sortCommands (fuse commands query))
    ∧ ((∀ c, c ∈ fuse [] query → c ∈ ([] : List Command)) →
      searchCommands fuse [] query = [])
    ∧ ((fuse commands query).Pairwise (fun a b => cmdKey a ≠ cmdKey b) →
      (fuse commands query).Perm (fuse₂ commands query) →
      searchCommands fuse commands query = searchCommands fuse₂ commands query) := by
  refine ⟨?_, ?_, ?_, ?_⟩
  · intro hq
    unfold searchCommands
    rw [if_pos hq]
  · intro hq
    unfold searchCommands
    rw [if_neg (by simp [hq])]
  · intro hsub
    unfold searchCommands
    by_cases hq : (trimList query).isEmpty
    · rw [if_pos hq]
      exact List.mergeSort_nil
    · rw [if_neg hq]
      have hnil : fuse [] query = [] := by
        cases hfv : fuse [] query with
        | nil => rfl
        | cons c rest =>
          have : c ∈ ([] : List Command) := hsub c (by rw [hfv]; simp)
          simp at this
      rw [hnil]
      exact List.mergeSort_nil
  · intro hpair hperm
    unfold searchCommands
    by_cases hq : (trimList query).isEmpty
    · rw [if_pos hq, if_pos hq]
    · rw [if_neg hq, if_neg hq]
      apply @sorted_perm_unique Command cmdLE
      · exact ((List.mergeSort_perm _ cmdLE).trans hperm).trans
          (List.mergeSort_perm _ cmdLE).symm
      · exact List.sorted_mergeSort cmdLE_trans cmdLE_total _
      · exact List.sorted_mergeSort cmdLE_trans cmdLE_total _
      · intro x hx y hy hxy hyx
        have hx' : x ∈ fuse commands query := List.mem_mergeSort.mp hx
        have hy' : y ∈ fuse commands query := List.mem_mergeSort.mp hy
        by_contra hne
        exact (hpair.forall cmdKey_ne_symm hx' hy' hne)
          (cmdLE_antisymm_key x y hxy hyx)

/-- Witness for C4 at concrete inputs: the identity matcher versus the
reversing matcher yield identical search output. -/
theorem claim4_witness :
    searchCommands (fun cs _ => cs) [cmdA, cmdB] [] = sortCommands [cmdA, cmdB]
    ∧ searchCommands (fun cs _ => cs) [] ['a'] = []
    ∧ searchCommands (fun cs _ => cs) [cmdA, cmdB] ['a']
        = searchCommands (fun cs _ => cs.reverse) [cmdA, cmdB] ['a'] := by
  refine ⟨?_, ?_, ?_⟩
  · exact (claim4_search (fun cs _ => cs) (fun cs _ => cs) [cmdA, cmdB] []).1 (by decide)
  · exact (claim4_search (fun cs _ => cs) (fun cs _ => cs) [] ['a']).2.2.1
      (fun c hc => hc)
  · exact (claim4_search (fun cs _ => cs) (fun cs _ => cs.reverse)
      [cmdA, cmdB] ['a']).2.2.2 (by decide) (by decide)

end CommaCli
